import Mathlib

/-!
Shallow embedding of `IMG-ZIP-MOD.py`, an image-archive cleaning tool.

The script extracts a zip archive into a working directory, reconciles the
extension-stripped file names against a newline-delimited retain list,
deletes unlisted files, deletes files whose decoded pixel size differs from
the size encoded in their top-level folder name (pattern `<W>x<H>`,
case-insensitive) by more than a tolerance, and rebuilds a zip from the
surviving files.

The filesystem walk (`os.walk`) is embedded as a list of directories, each
with its path components relative to the extraction root and its list of
files.  Each file carries the outcome of the two external effects the
script performs on it: `decode` is the result of `PIL.Image.open` (pixel
size, or the error message of the raised exception) and `remove_err` is the
outcome of `os.remove` (`none` = success, `some msg` = raised `OSError`).
String operations (`str.lower`, `str.split`, `int`, `os.path.splitext`,
`os.path.relpath`) are embedded over `List Char` with POSIX `os.sep = '/'`
and ASCII case mapping.
-/

/-- Python `str.split(sep)` for a one-character separator: splits at every
occurrence, keeping empty fragments. -/
def splitOnChar (sep : Char) : List Char → List (List Char)
  | [] => [[]]
  | a :: as =>
    match splitOnChar sep as with
    | [] => [[a]]
    | g :: gs => if a = sep then [] :: g :: gs else (a :: g) :: gs

/-- The whitespace characters stripped by Python `int(str)` (ASCII subset). -/
def pyIsSpace (c : Char) : Bool :=
  c = ' ' || c = '\t' || c = '\n' || c = '\r' || c = '\x0b' || c = '\x0c'

/-- Strip leading and trailing whitespace, as Python `int` does before parsing. -/
def stripWs (l : List Char) : List Char :=
  ((l.dropWhile pyIsSpace).reverse.dropWhile pyIsSpace).reverse

/-- Validity of the digit part of a Python integer literal: one or more
digit groups separated by single underscores.  `seen` records whether the
previous character was a digit (so an underscore is legal and the string
may end). -/
def pyDigits : List Char → Bool → Bool
  | [], seen => seen
  | c :: rest, seen =>
    if c.isDigit then pyDigits rest true
    else if c == '_' && seen then pyDigits rest false
    else false

/-- Numeric value of a digit string, skipping the underscore separators. -/
def digitsVal : List Char → Nat → Nat
  | [], acc => acc
  | c :: rest, acc =>
    if c == '_' then digitsVal rest acc else digitsVal rest (acc * 10 + (c.toNat - 48))

/-- Python `int(s)`, returning `none` where `int` raises `ValueError`:
optional surrounding whitespace, optional sign, then digits with optional
single underscores between digit groups (ASCII digits). -/
def pyInt (l : List Char) : Option Int :=
  let t := stripWs l
  match t with
  | '+' :: rest => if pyDigits rest false then some (Int.ofNat (digitsVal rest 0)) else none
  | '-' :: rest => if pyDigits rest false then some (-(Int.ofNat (digitsVal rest 0))) else none
  | _ => if pyDigits t false then some (Int.ofNat (digitsVal t 0)) else none

/-- `get_expected_size(folder_name)`: lower-case the name, split on `'x'`;
the `w, h = ...` unpacking raises `ValueError` unless there are exactly two
fragments, and `int` raises `ValueError` on unparsable fragments; the
function catches `ValueError` and returns `None`. -/
def get_expected_size (folder_name : String) : Option (Int × Int) :=
  match splitOnChar 'x' (folder_name.toList.map Char.toLower) with
  | [w, h] =>
    match pyInt w, pyInt h with
    | some wi, some hi => some (wi, hi)
    | _, _ => none
  | _ => none

/-- `is_within_tolerance(actual_size, expected_size, tolerance)`. -/
def is_within_tolerance (actual_size expected_size : Int × Int) (tolerance : Int) : Bool :=
  decide (|actual_size.1 - expected_size.1| ≤ tolerance) &&
  decide (|actual_size.2 - expected_size.2| ≤ tolerance)

/-- Index of the last `'.'` in a character list, if any. -/
def lastDotIdx : List Char → Option Nat
  | [] => none
  | c :: cs =>
    match lastDotIdx cs with
    | some i => some (i + 1)
    | none => if c == '.' then some 0 else none

/-- The name part of `os.path.splitext(file)` for a bare file name: cut at
the last dot, except when every character before that dot is itself a dot
(so `".bashrc"` keeps its name whole), in which case nothing is cut. -/
def stripExt (file : String) : String :=
  let cs := file.toList
  match lastDotIdx cs with
  | none => file
  | some i => if (cs.take i).all (fun c => c == '.') then file else String.mk (cs.take i)

/-- One file encountered by the walk.  `decode` is the result of
`PIL.Image.open` on it (`.ok` with `img.size`, or `.error` with the message
of the raised exception); `remove_err` is what `os.remove` would do
(`none` = succeed, `some msg` = raise `OSError(msg)`); `content` is the
byte content, relevant for re-archiving. -/
structure FileLeaf where
  name : String
  decode : Except String (Nat × Nat)
  remove_err : Option String
  content : List Nat

deriving instance DecidableEq for Except

deriving instance DecidableEq for FileLeaf

/-- One directory visited by `os.walk(base_dir)`: its path components
relative to the extraction root (`[]` is the root itself) and the files
directly inside it. -/
structure WalkDir where
  dir : List String
  files : List FileLeaf
deriving DecidableEq

/-- The extracted working tree, as the sequence of directories `os.walk`
visits. -/
abbrev WorkTree := List WalkDir

/-- Join path components with the POSIX separator, as the string
`os.path.relpath(root, base_dir)` consists of. -/
def joinComponents : List String → List Char
  | [] => []
  | [a] => a.toList
  | a :: rest => a.toList ++ '/' :: joinComponents rest

/-- `os.path.relpath(root, base_dir)` for a walked directory: `"."` for the
root itself, otherwise the components joined with `'/'`. -/
def relpathChars (dir : List String) : List Char :=
  if dir = [] then ['.'] else joinComponents dir

/-- `os.path.relpath(root, base_dir).split(os.sep)[0]`: the folder name the
size pass attributes to every file under a walked directory. -/
def walkFolderName (dir : List String) : String :=
  String.mk ((splitOnChar '/' (relpathChars dir)).headD [])

/-- `os.path.join(root, file)` for a walked directory under `base_dir`. -/
def filePath (base : String) (dir : List String) (name : String) : String :=
  match dir with
  | [] => base ++ "/" ++ name
  | _ => base ++ "/" ++ String.mk (joinComponents dir) ++ "/" ++ name

/-- The warning `st.warning(f"Could not open {file_path}: {e}")` emitted by
the size pass's `except` branch. -/
def decodeWarn (path msg : String) : String :=
  "Could not open " ++ path ++ ": " ++ msg

/-- Python `repr` of a pair of ints, as f-string interpolation renders
`expected_size` and `actual_size`. -/
def tupleRepr (a b : Int) : String :=
  "(" ++ toString a ++ ", " ++ toString b ++ ")"

/-- The record `f"{file} | Expected: {expected_size}, Actual: {actual_size}"`
appended to `deleted_by_size`. -/
def sizeRecord (name : String) (e : Int × Int) (a : Nat × Nat) : String :=
  name ++ " | Expected: " ++ tupleRepr e.1 e.2 ++ ", Actual: " ++ tupleRepr (a.1 : Int) (a.2 : Int)

/-- Result of the size pass on one file: the file if it survives, the
`deleted_by_size` records it contributes, and the warnings it emits. -/
structure StepRes where
  keep : Option FileLeaf
  recs : List String
  warns : List String
deriving DecidableEq

/-- The body of the inner loop of `check_and_delete_by_size` for one file:
`Image.open` is attempted first; on failure the `except` branch warns and
the file survives.  With a decoded size, the file is removed only when the
folder yielded an expected size and the size check fails; a failing
`os.remove` is caught by the same `except` branch, so the file survives
with a warning and the loop continues. -/
def sizeFileStep (base : String) (tol : Int) (dir : List String)
    (expected : Option (Int × Int)) (f : FileLeaf) : StepRes :=
  match f.decode with
  | Except.error e => ⟨some f, [], [decodeWarn (filePath base dir f.name) e]⟩
  | Except.ok a =>
    match expected with
    | none => ⟨some f, [], []⟩
    | some es =>
      if is_within_tolerance ((a.1 : Int), (a.2 : Int)) es tol then ⟨some f, [], []⟩
      else
        match f.remove_err with
        | none => ⟨none, [sizeRecord f.name es a], []⟩
        | some msg => ⟨some f, [], [decodeWarn (filePath base dir f.name) msg]⟩

/-- Result of the size pass on the files of one directory. -/
structure SizeFilesRes where
  files : List FileLeaf
  recs : List String
  warns : List String
deriving DecidableEq

/-- The inner loop of `check_and_delete_by_size` over one directory's
files. -/
def sizeDirFiles (base : String) (tol : Int) (dir : List String)
    (expected : Option (Int × Int)) : List FileLeaf → SizeFilesRes
  | [] => ⟨[], [], []⟩
  | f :: fs =>
    let s := sizeFileStep base tol dir expected f
    let r := sizeDirFiles base tol dir expected fs
    ⟨s.keep.toList ++ r.files, s.recs ++ r.recs, s.warns ++ r.warns⟩

/-- Result of `check_and_delete_by_size`: the tree after deletions, the
returned `deleted_by_size` list, and the `st.warning` messages emitted. -/
structure SizeResult where
  tree : WorkTree
  deleted_by_size : List String
  warnings : List String
deriving DecidableEq

/-- `check_and_delete_by_size(base_dir, tolerance)`: walk the tree; per
directory, take the first component of its path relative to the root as
`folder_name` and parse it with `get_expected_size`; process every file
with `sizeFileStep`. -/
def check_and_delete_by_size (base : String) : WorkTree → Int → SizeResult
  | [], _ => ⟨[], [], []⟩
  | d :: ds, tol =>
    let r := sizeDirFiles base tol d.dir (get_expected_size (walkFolderName d.dir)) d.files
    let rest := check_and_delete_by_size base ds tol
    ⟨⟨d.dir, r.files⟩ :: rest.tree, r.recs ++ rest.deleted_by_size, r.warns ++ rest.warnings⟩

/-- Survival predicate of one file under the size pass, given the expected
size of its attributed folder: a file survives unless it decodes, an
expected size exists, the size check fails, and `os.remove` succeeds. -/
def sizeKeep (tol : Int) (expected : Option (Int × Int)) (f : FileLeaf) : Bool :=
  match f.decode, expected with
  | Except.error _, _ => true
  | Except.ok _, none => true
  | Except.ok a, some es =>
    is_within_tolerance ((a.1 : Int), (a.2 : Int)) es tol || f.remove_err.isSome

/-- The effect of the size pass on one walked directory, phrased as a
filter. -/
def dirFilter (tol : Int) (d : WalkDir) : WalkDir :=
  ⟨d.dir, d.files.filter (sizeKeep tol (get_expected_size (walkFolderName d.dir)))⟩

/-- Membership of a stripped name in the retain set, i.e. the negation of
the `if name not in retain_list` test of `delete_unlisted_images`. -/
def keepUnlisted (retain : Finset String) (f : FileLeaf) : Bool :=
  decide (stripExt f.name ∈ retain)

/-- Result of the deletion loop over one directory's files: surviving
files, deleted names, and the `OSError` that aborted the loop, if any. -/
structure DelFilesRes where
  files : List FileLeaf
  deleted : List String
  error : Option String
deriving DecidableEq

/-- The inner loop of `delete_unlisted_images` over one directory's files:
`os.remove` each file whose stripped name is not retained; there is no
`try` here, so a raised `OSError` propagates at once and the remaining
files are untouched. -/
def deleteFiles (retain : Finset String) : List FileLeaf → DelFilesRes
  | [] => ⟨[], [], none⟩
  | f :: fs =>
    if keepUnlisted retain f then
      let r := deleteFiles retain fs
      ⟨f :: r.files, r.deleted, r.error⟩
    else
      match f.remove_err with
      | some msg => ⟨f :: fs, [], some msg⟩
      | none =>
        let r := deleteFiles retain fs
        ⟨r.files, f.name :: r.deleted, r.error⟩

/-- Result of `delete_unlisted_images`: the tree after deletions, the
returned `deleted` list, and the propagated `OSError`, if any (when an
error propagates the Python caller never sees the list). -/
structure DeleteResult where
  tree : WorkTree
  deleted : List String
  error : Option String
deriving DecidableEq

/-- `delete_unlisted_images(base_dir, retain_list)`: walk the tree deleting
every file whose extension-stripped name is not in the retain set; a
raised `OSError` aborts the whole walk, leaving later directories
untouched. -/
def delete_unlisted_images : WorkTree → Finset String → DeleteResult
  | [], _ => ⟨[], [], none⟩
  | d :: ds, retain =>
    let r := deleteFiles retain d.files
    match r.error with
    | some msg => ⟨⟨d.dir, r.files⟩ :: ds, r.deleted, some msg⟩
    | none =>
      let rest := delete_unlisted_images ds retain
      ⟨⟨d.dir, r.files⟩ :: rest.tree, r.deleted ++ rest.deleted, rest.error⟩

/-- The set of extension-stripped names found by walking the tree, as
`list_files_not_in_txt` accumulates it. -/
def foundNames : WorkTree → Finset String
  | [] => ∅
  | d :: ds => d.files.foldr (fun f acc => insert (stripExt f.name) acc) (foundNames ds)

/-- `list_files_not_in_txt(base_dir, retain_list)`: the pair
`(found_names - retain_list, retain_list - found_names)`; a read-only
pass. -/
def list_files_not_in_txt (tree : WorkTree) (retain : Finset String) :
    Finset String × Finset String :=
  (foundNames tree \ retain, retain \ foundNames tree)

/-- The directory part of a zip entry's path components. -/
def dirOf : List String → List String
  | [] => []
  | [_] => []
  | a :: rest => a :: dirOf rest

/-- The file-name part of a zip entry's path components. -/
def baseOf : List String → String
  | [] => ""
  | [a] => a
  | _ :: rest => baseOf rest

/-- All ancestor directories of a directory path, the root `[]` included,
as `extractall` creates them. -/
def initialSegs : List String → List (List String)
  | [] => [[]]
  | a :: as => [] :: (initialSegs as).map (fun l => a :: l)

/-- Concatenation of lists of directory paths. -/
def catLists : List (List (List String)) → List (List String)
  | [] => []
  | l :: ls => l ++ catLists ls

/-- The directories of the tree `extractall` leaves behind: the root plus
every ancestor of every entry's directory, each once, in first-appearance
order. -/
def extractDirs (z : List (List String × List Nat)) : List (List String) :=
  ([] :: catLists (z.map (fun e => initialSegs (dirOf e.1)))).dedup

/-- The files extraction places directly inside directory `d`:
one per archive entry whose directory part is `d`.  `dec` is the image
decoder applied to the entry's bytes; freshly extracted files are
removable. -/
def extractFilesInto (dec : List Nat → Except String (Nat × Nat))
    (z : List (List String × List Nat)) (d : List String) : List FileLeaf :=
  z.filterMap (fun e =>
    if dirOf e.1 = d then some ⟨baseOf e.1, dec e.2, none, e.2⟩ else none)

/-- `extract_zip(zip_file, extract_to)`: any pre-existing working tree is
removed (`shutil.rmtree`) before `extractall`, so the resulting tree is
built from the archive entries alone.  An archive is modelled as the list
of its file entries `(path components, byte content)`; the external
`zipfile`/`PIL` codecs are the parameters. -/
def extract_zip (dec : List Nat → Except String (Nat × Nat))
    (z : List (List String × List Nat)) : WorkTree :=
  (extractDirs z).map (fun d => ⟨d, extractFilesInto dec z d⟩)

/-- `create_zip_from_folder(folder_path, zip_path)`: walk the tree and
write every file under the arcname `os.path.relpath(abs_path, folder_path)`,
i.e. its path components joined with `'/'`. -/
def create_zip_from_folder : WorkTree → List (String × List Nat)
  | [] => []
  | d :: ds =>
    d.files.map (fun f => (String.mk (joinComponents (d.dir ++ [f.name])), f.content)) ++
      create_zip_from_folder ds

/-- Well-formedness of one zip entry path: nonempty, with nonempty
separator-free components. -/
def pathOk (p : List String) : Bool :=
  decide (p ≠ []) && p.all (fun c => decide (c ≠ "") && decide ('/' ∉ c.toList))

/-- A valid input archive: well-formed entry paths, no two entries with
the same path (extraction would overwrite one with the other). -/
def archiveValid (z : List (List String × List Nat)) : Bool :=
  z.all (fun e => pathOk e.1) && decide ((z.map Prod.fst).Nodup)

/-- Witness file: decodes to `(101, 199)` under folder `100x200`. -/
def wFile : FileLeaf := ⟨"img.png", Except.ok (101, 199), none, []⟩

/-- Witness directory named `100x200`. -/
def wDir : WalkDir := ⟨["100x200"], [wFile]⟩

/-- Witness tree: a single size-tagged folder with one file. -/
def wTree : WorkTree := [wDir]

/-- A mismatched file whose removal raises `OSError("Permission denied")`. -/
def cexFileA : FileLeaf := ⟨"a.png", Except.ok (50, 50), some "Permission denied", []⟩

/-- A mismatched file whose removal succeeds. -/
def cexFileB : FileLeaf := ⟨"b.png", Except.ok (50, 50), none, []⟩

/-- A tree in which the size pass hits a removal failure on `a.png` before
reaching `b.png`. -/
def cexTree : WorkTree := [⟨["100x200"], [cexFileA, cexFileB]⟩]

/-- Witness file for nesting: would fail the parent's size tag badly. -/
def nFile : FileLeaf := ⟨"n.png", Except.ok (1, 1), none, []⟩

/-- Witness directory nested two levels deep: the immediate parent is named
`100x200` but the top-level folder is `misc`. -/
def nDir : WalkDir := ⟨["misc", "100x200"], [nFile]⟩

/-- Witness tree for the first-path-component attribution. -/
def nTree : WorkTree := [nDir]

/-- Witness file whose decode fails. -/
def eFile : FileLeaf := ⟨"bad.png", Except.error "cannot identify image file", none, []⟩

/-- Witness directory holding an undecodable file under a parsable tag. -/
def eDir : WalkDir := ⟨["100x200"], [eFile]⟩

/-- Witness tree for decode-failure handling. -/
def eTree : WorkTree := [eDir]

/-- Witness file with wildly off dimensions. -/
def mFile : FileLeaf := ⟨"huge.png", Except.ok (9999, 9999), none, []⟩

/-- Witness directory with an unparsable name. -/
def mDir : WalkDir := ⟨["misc"], [mFile]⟩

/-- Witness tree for size-check exemption. -/
def mTree : WorkTree := [mDir]

/-- Witness file sitting directly at the extraction root. -/
def rFile : FileLeaf := ⟨"r.png", Except.ok (5, 5), none, []⟩

/-- Witness root directory. -/
def rDir : WalkDir := ⟨[], [rFile]⟩

/-- Witness tree with a file at the root. -/
def rTree : WorkTree := [rDir]

/-- Witness undecodable file in an exempt folder. -/
def xFile : FileLeaf := ⟨"junk.bin", Except.error "not an image", none, []⟩

/-- Witness exempt directory holding an undecodable file. -/
def xDir : WalkDir := ⟨["misc"], [xFile]⟩

/-- Witness tree for decode attempts on exempt files. -/
def xTree : WorkTree := [xDir]

/-- Witness image decoder for the archive round trip. -/
def wDecoder : List Nat → Except String (Nat × Nat) := fun _ => Except.error "stub"

/-- Witness archive with a nested entry and a root entry. -/
def wZip : List (List String × List Nat) := [(["100x200", "a.png"], [1, 2]), (["b.png"], [3])]

/-! ### Characterization of the size pass -/

theorem sizeFileStep_keep (base : String) (tol : Int) (dir : List String)
    (expected : Option (Int × Int)) (f : FileLeaf) :
    (sizeFileStep base tol dir expected f).keep =
      if sizeKeep tol expected f then some f else none := by
  cases hdec : f.decode with
  | error e => simp [sizeFileStep, sizeKeep, hdec]
  | ok a =>
    cases expected with
    | none => simp [sizeFileStep, sizeKeep, hdec]
    | some es =>
      cases hw : is_within_tolerance ((a.1 : Int), (a.2 : Int)) es tol with
      | true => simp [sizeFileStep, sizeKeep, hdec, hw]
      | false =>
        cases hrem : f.remove_err with
        | none => simp [sizeFileStep, sizeKeep, hdec, hw, hrem]
        | some msg => simp [sizeFileStep, sizeKeep, hdec, hw, hrem]

theorem sizeDirFiles_files (base : String) (tol : Int) (dir : List String)
    (expected : Option (Int × Int)) (fs : List FileLeaf) :
    (sizeDirFiles base tol dir expected fs).files = fs.filter (sizeKeep tol expected) := by
  induction fs with
  | nil => rfl
  | cons f fs ih =>
    simp only [sizeDirFiles, sizeFileStep_keep]
    cases h : sizeKeep tol expected f <;> simp [h, ih, List.filter_cons]

theorem check_tree_eq (base : String) (tree : WorkTree) (tol : Int) :
    (check_and_delete_by_size base tree tol).tree = tree.map (dirFilter tol) := by
  induction tree with
  | nil => rfl
  | cons d ds ih =>
    simp only [check_and_delete_by_size, List.map_cons]
    rw [sizeDirFiles_files, ih]
    rfl

theorem mem_warns_sizeDirFiles {base : String} {tol : Int} {dir : List String}
    {expected : Option (Int × Int)} {fs : List FileLeaf} {f : FileLeaf} {w : String}
    (hf : f ∈ fs) (hw : w ∈ (sizeFileStep base tol dir expected f).warns) :
    w ∈ (sizeDirFiles base tol dir expected fs).warns := by
  induction fs with
  | nil => cases hf
  | cons g gs ih =>
    rcases List.mem_cons.mp hf with h | h
    · subst h
      simp only [sizeDirFiles, List.mem_append]
      exact Or.inl hw
    · simp only [sizeDirFiles, List.mem_append]
      exact Or.inr (ih h)

theorem mem_warnings_check {base : String} {tree : WorkTree} {tol : Int}
    {d : WalkDir} {f : FileLeaf} {w : String}
    (hd : d ∈ tree) (hf : f ∈ d.files)
    (hw : w ∈ (sizeFileStep base tol d.dir (get_expected_size (walkFolderName d.dir)) f).warns) :
    w ∈ (check_and_delete_by_size base tree tol).warnings := by
  induction tree with
  | nil => cases hd
  | cons e es ih =>
    rcases List.mem_cons.mp hd with h | h
    · subst h
      simp only [check_and_delete_by_size, List.mem_append]
      exact Or.inl (mem_warns_sizeDirFiles hf hw)
    · simp only [check_and_delete_by_size, List.mem_append]
      exact Or.inr (ih h)

/-! ### The first path component of a walked directory -/

theorem splitOnChar_ne_nil (sep : Char) (l : List Char) : splitOnChar sep l ≠ [] := by
  cases l with
  | nil => simp [splitOnChar]
  | cons a as =>
    rw [splitOnChar]
    cases h : splitOnChar sep as with
    | nil => simp
    | cons g gs => by_cases ha : a = sep <;> simp [ha]

theorem splitOnChar_headD_append (sep : Char) (l r : List Char) (h : sep ∉ l) :
    (splitOnChar sep (l ++ r)).headD [] = l ++ (splitOnChar sep r).headD [] := by
  induction l with
  | nil => simp
  | cons a as ih =>
    have ha : a ≠ sep := fun e => h (e ▸ List.mem_cons_self a as)
    have has : sep ∉ as := fun hm => h (List.mem_cons_of_mem a hm)
    obtain ⟨g, gs, hg⟩ : ∃ g gs, splitOnChar sep (as ++ r) = g :: gs := by
      cases hh : splitOnChar sep (as ++ r) with
      | nil => exact absurd hh (splitOnChar_ne_nil sep _)
      | cons g gs => exact ⟨g, gs, rfl⟩
    have hgl : g = as ++ (splitOnChar sep r).headD [] := by
      have h2 := ih has
      rw [hg] at h2
      simpa using h2
    rw [List.cons_append, splitOnChar, hg]
    simp [ha, hgl]

theorem splitOnChar_headD_cons_self (sep : Char) (t : List Char) :
    (splitOnChar sep (sep :: t)).headD [] = [] := by
  obtain ⟨g, gs, hg⟩ : ∃ g gs, splitOnChar sep t = g :: gs := by
    cases hh : splitOnChar sep t with
    | nil => exact absurd hh (splitOnChar_ne_nil sep _)
    | cons g gs => exact ⟨g, gs, rfl⟩
  rw [splitOnChar, hg]
  simp

theorem walkFolderName_cons (c : String) (rest : List String) (hc : '/' ∉ c.toList) :
    walkFolderName (c :: rest) = c := by
  cases rest with
  | nil =>
    have h1 : relpathChars [c] = c.toList ++ [] := by
      simp [relpathChars, joinComponents]
    rw [walkFolderName, h1, splitOnChar_headD_append '/' c.toList [] hc]
    simp [splitOnChar]
  | cons r rs =>
    have h1 : relpathChars (c :: r :: rs) = c.toList ++ '/' :: joinComponents (r :: rs) := by
      simp [relpathChars, joinComponents]
    rw [walkFolderName, h1, splitOnChar_headD_append '/' c.toList _ hc,
      splitOnChar_headD_cons_self]
    simp

/-! ### Characterization of the delete-unlisted pass -/

theorem deleteFiles_files_of_error_none (retain : Finset String) (fs : List FileLeaf)
    (h : (deleteFiles retain fs).error = none) :
    (deleteFiles retain fs).files = fs.filter (keepUnlisted retain) := by
  induction fs with
  | nil => rfl
  | cons f fs ih =>
    cases hk : keepUnlisted retain f with
    | true =>
      simp only [deleteFiles, hk, if_true] at h ⊢
      rw [List.filter_cons_of_pos hk, ih h]
    | false =>
      cases hrem : f.remove_err with
      | some msg => simp [deleteFiles, hk, hrem] at h
      | none =>
        simp only [deleteFiles, hk, hrem, Bool.false_eq_true, if_false] at h ⊢
        rw [List.filter_cons_of_neg (by simp [hk]), ih h]

theorem deleteFiles_fixed (retain : Finset String) (fs : List FileLeaf)
    (h : ∀ f ∈ fs, keepUnlisted retain f = true) :
    deleteFiles retain fs = ⟨fs, [], none⟩ := by
  induction fs with
  | nil => rfl
  | cons f fs ih =>
    have hf := h f (List.mem_cons_self f fs)
    have hrest := ih (fun g hg => h g (List.mem_cons_of_mem f hg))
    simp [deleteFiles, hf, hrest]

theorem delete_unlisted_tree_of_error_none (tree : WorkTree) (retain : Finset String)
    (h : (delete_unlisted_images tree retain).error = none) :
    (delete_unlisted_images tree retain).tree =
      tree.map (fun d => ⟨d.dir, d.files.filter (keepUnlisted retain)⟩) := by
  induction tree with
  | nil => rfl
  | cons d ds ih =>
    cases herr : (deleteFiles retain d.files).error with
    | some msg => simp [delete_unlisted_images, herr] at h
    | none =>
      simp only [delete_unlisted_images, herr] at h ⊢
      rw [List.map_cons]
      exact congrArg₂ _ (congrArg _ (deleteFiles_files_of_error_none retain d.files herr)) (ih h)

theorem delete_unlisted_fixed (tree : WorkTree) (retain : Finset String)
    (h : ∀ d ∈ tree, ∀ f ∈ d.files, keepUnlisted retain f = true) :
    delete_unlisted_images tree retain = ⟨tree, [], none⟩ := by
  induction tree with
  | nil => rfl
  | cons d ds ih =>
    have h1 : deleteFiles retain d.files = ⟨d.files, [], none⟩ :=
      deleteFiles_fixed retain d.files (h d (List.mem_cons_self d ds))
    have h2 := ih (fun e he f hf => h e (List.mem_cons_of_mem d he) f hf)
    simp [delete_unlisted_images, h1, h2]

/-! ### The set of found names -/

theorem mem_foldr_insert (fs : List FileLeaf) (s : Finset String) (x : String) :
    x ∈ fs.foldr (fun f acc => insert (stripExt f.name) acc) s ↔
      (∃ f ∈ fs, stripExt f.name = x) ∨ x ∈ s := by
  induction fs with
  | nil => simp
  | cons f fs ih =>
    simp only [List.foldr_cons, Finset.mem_insert, ih, List.mem_cons]
    constructor
    · rintro (h | h)
      · exact Or.inl ⟨f, Or.inl rfl, h.symm⟩
      · rcases h with ⟨g, hg, hx⟩ | hs
        · exact Or.inl ⟨g, Or.inr hg, hx⟩
        · exact Or.inr hs
    · rintro (⟨g, hg | hg, hx⟩ | hs)
      · exact Or.inl (hg ▸ hx.symm)
      · exact Or.inr (Or.inl ⟨g, hg, hx⟩)
      · exact Or.inr (Or.inr hs)

theorem mem_foundNames (tree : WorkTree) (x : String) :
    x ∈ foundNames tree ↔ ∃ d ∈ tree, ∃ f ∈ d.files, stripExt f.name = x := by
  induction tree with
  | nil => simp [foundNames]
  | cons d ds ih =>
    rw [foundNames, mem_foldr_insert]
    constructor
    · rintro (⟨f, hf, hx⟩ | hs)
      · exact ⟨d, List.mem_cons_self d ds, f, hf, hx⟩
      · rcases ih.mp hs with ⟨d', hd', f, hf, hx⟩
        exact ⟨d', List.mem_cons_of_mem d hd', f, hf, hx⟩
    · rintro ⟨d', hd', f, hf, hx⟩
      rcases List.mem_cons.mp hd' with rfl | hd'
      · exact Or.inl ⟨f, hf, hx⟩
      · exact Or.inr (ih.mpr ⟨d', hd', f, hf, hx⟩)

/-! ### Extraction and re-archiving -/

theorem mem_catLists {L : List (List (List String))} {a : List String} :
    a ∈ catLists L ↔ ∃ l ∈ L, a ∈ l := by
  induction L with
  | nil => simp [catLists]
  | cons l ls ih => simp [catLists, List.mem_append, ih]

theorem self_mem_initialSegs (l : List String) : l ∈ initialSegs l := by
  induction l with
  | nil => simp [initialSegs]
  | cons a as ih =>
    rw [initialSegs]
    exact List.mem_cons_of_mem _ (List.mem_map_of_mem _ ih)

theorem mem_extractDirs {z : List (List String × List Nat)} {e : List String × List Nat}
    (he : e ∈ z) : dirOf e.1 ∈ extractDirs z := by
  rw [extractDirs, List.mem_dedup]
  exact List.mem_cons_of_mem _
    (mem_catLists.mpr ⟨initialSegs (dirOf e.1), List.mem_map_of_mem _ he, self_mem_initialSegs _⟩)

theorem dirOf_append_baseOf {p : List String} (h : p ≠ []) :
    dirOf p ++ [baseOf p] = p := by
  induction p with
  | nil => cases h rfl
  | cons a as ih =>
    cases as with
    | nil => rfl
    | cons b bs =>
      have := ih (List.cons_ne_nil b bs)
      simp only [dirOf, baseOf, List.cons_append]
      rw [this]

theorem mem_extractFiles {dec : List Nat → Except String (Nat × Nat)}
    {z : List (List String × List Nat)} {d : List String} {f : FileLeaf} :
    f ∈ extractFilesInto dec z d ↔
      ∃ e ∈ z, dirOf e.1 = d ∧ f = ⟨baseOf e.1, dec e.2, none, e.2⟩ := by
  simp only [extractFilesInto, List.mem_filterMap]
  constructor
  · rintro ⟨e, he, hsome⟩
    by_cases hd : dirOf e.1 = d
    · rw [if_pos hd] at hsome
      exact ⟨e, he, hd, (Option.some_inj.mp hsome).symm⟩
    · rw [if_neg hd] at hsome
      cases hsome
  · rintro ⟨e, he, hd, rfl⟩
    exact ⟨e, he, by rw [if_pos hd]⟩

theorem mem_create_zip {tree : WorkTree} {pr : String × List Nat} :
    pr ∈ create_zip_from_folder tree ↔
      ∃ d ∈ tree, ∃ f ∈ d.files,
        pr = (String.mk (joinComponents (d.dir ++ [f.name])), f.content) := by
  induction tree with
  | nil => simp [create_zip_from_folder]
  | cons d ds ih =>
    simp only [create_zip_from_folder, List.mem_append, List.mem_map, ih]
    constructor
    · rintro (⟨f, hf, hpr⟩ | ⟨d', hd', f, hf, hpr⟩)
      · exact ⟨d, List.mem_cons_self d ds, f, hf, hpr.symm⟩
      · exact ⟨d', List.mem_cons_of_mem d hd', f, hf, hpr⟩
    · rintro ⟨d', hd', f, hf, hpr⟩
      rcases List.mem_cons.mp hd' with rfl | hd'
      · exact Or.inl ⟨f, hf, hpr.symm⟩
      · exact Or.inr ⟨d', hd', f, hf, hpr⟩

theorem archiveValid_ne_nil {z : List (List String × List Nat)}
    (hv : archiveValid z = true) : ∀ e ∈ z, e.1 ≠ [] := by
  intro e he
  rw [archiveValid, Bool.and_eq_true, List.all_eq_true] at hv
  have h2 := hv.1 e he
  rw [pathOk, Bool.and_eq_true] at h2
  exact of_decide_eq_true h2.1

/-! ### Claims -/

/-- C1: for every file with a determinable expected size, a decoded actual
size and a removable file, the size pass keeps the file iff both dimension
gaps are within the tolerance, and deletes it otherwise; the whole pass is
the per-directory filter `dirFilter`. -/
theorem size_pass_keep_iff_within_tolerance (base : String) (tree : WorkTree) (tol : Int)
    (d : WalkDir) (f : FileLeaf) (a : Nat × Nat) (e : Int × Int)
    (hd : d ∈ tree) (hf : f ∈ d.files)
    (hdec : f.decode = Except.ok a) (hrem : f.remove_err = none)
    (hexp : get_expected_size (walkFolderName d.dir) = some e) :
    (check_and_delete_by_size base tree tol).tree = tree.map (dirFilter tol) ∧
    dirFilter tol d ∈ (check_and_delete_by_size base tree tol).tree ∧
    (f ∈ (dirFilter tol d).files ↔
      is_within_tolerance ((a.1 : Int), (a.2 : Int)) e tol = true) := by
  refine ⟨check_tree_eq base tree tol, ?_, ?_⟩
  · rw [check_tree_eq]
    exact List.mem_map_of_mem _ hd
  · rw [dirFilter]
    simp only [List.mem_filter]
    constructor
    · rintro ⟨-, hk⟩
      simpa [sizeKeep, hdec, hexp, hrem] using hk
    · intro hw
      exact ⟨hf, by simp [sizeKeep, hdec, hexp, hrem, hw]⟩

/-- C1 witness: a file in folder `100x200` with actual size `(101, 199)` is
kept at tolerance 1 and deleted at tolerance 0. -/
theorem size_pass_keep_iff_within_tolerance_witness :
    ((check_and_delete_by_size "temp_extracted" wTree 1).tree = wTree.map (dirFilter 1) ∧
      dirFilter 1 wDir ∈ (check_and_delete_by_size "temp_extracted" wTree 1).tree ∧
      (wFile ∈ (dirFilter 1 wDir).files ↔
        is_within_tolerance ((101 : Int), (199 : Int)) (100, 200) 1 = true)) ∧
    ((check_and_delete_by_size "temp_extracted" wTree 0).tree = wTree.map (dirFilter 0) ∧
      dirFilter 0 wDir ∈ (check_and_delete_by_size "temp_extracted" wTree 0).tree ∧
      (wFile ∈ (dirFilter 0 wDir).files ↔
        is_within_tolerance ((101 : Int), (199 : Int)) (100, 200) 0 = true)) :=
  ⟨size_pass_keep_iff_within_tolerance "temp_extracted" wTree 1 wDir wFile (101, 199) (100, 200)
      (by decide) (by decide) rfl rfl (by decide),
    size_pass_keep_iff_within_tolerance "temp_extracted" wTree 0 wDir wFile (101, 199) (100, 200)
      (by decide) (by decide) rfl rfl (by decide)⟩

/-- C2: the folder name the size pass uses for a walked directory is the
first path component of its path relative to the extraction root, whatever
deeper components (in particular the immediate parent) are; the directory's
files are filtered by the expected size parsed from that first component
alone. -/
theorem size_inference_uses_first_component (base : String) (tree : WorkTree) (tol : Int)
    (d : WalkDir) (c : String) (rest : List String)
    (hd : d ∈ tree) (hdir : d.dir = c :: rest) (hc : '/' ∉ c.toList) :
    walkFolderName d.dir = c ∧
    dirFilter tol d = ⟨d.dir, d.files.filter (sizeKeep tol (get_expected_size c))⟩ ∧
    dirFilter tol d ∈ (check_and_delete_by_size base tree tol).tree := by
  have h1 : walkFolderName d.dir = c := by
    rw [hdir]
    exact walkFolderName_cons c rest hc
  refine ⟨h1, ?_, ?_⟩
  · rw [dirFilter, h1]
  · rw [check_tree_eq]
    exact List.mem_map_of_mem _ hd

/-- C2 witness: for a directory `misc/100x200` the inferred folder is the
top-level `misc`, not the immediate parent `100x200`. -/
theorem size_inference_uses_first_component_witness :
    walkFolderName nDir.dir = "misc" ∧
    dirFilter 1 nDir = ⟨nDir.dir, nDir.files.filter (sizeKeep 1 (get_expected_size "misc"))⟩ ∧
    dirFilter 1 nDir ∈ (check_and_delete_by_size "temp_extracted" nTree 1).tree :=
  size_inference_uses_first_component "temp_extracted" nTree 1 nDir "misc" ["100x200"]
    (by decide) rfl (by decide)

/-- C3 counterexample: in `cexTree` the removal of the mismatched `a.png`
fails with `OSError("Permission denied")`, yet the size pass neither fails
nor stops: the failure is downgraded to a "Could not open" warning and the
next mismatched file `b.png` is still deleted, so the action performs
further deletion attempts after a removal failure. -/
theorem size_pass_continues_after_remove_failure_cex :
    (check_and_delete_by_size "temp_extracted" cexTree 0).warnings =
      [decodeWarn "temp_extracted/100x200/a.png" "Permission denied"] ∧
    (check_and_delete_by_size "temp_extracted" cexTree 0).tree = [⟨["100x200"], [cexFileA]⟩] ∧
    (check_and_delete_by_size "temp_extracted" cexTree 0).deleted_by_size =
      [sizeRecord "b.png" (100, 200) (50, 50)] := by
  refine ⟨?_, ?_, ?_⟩ <;> rfl

/-- C3 (amended): `delete_unlisted_images` has no exception handler, so a
removal failure propagates to the caller at once and the remaining
iterations are abandoned with the tree untouched from the failing file on;
`check_and_delete_by_size` instead catches the failure inside its per-file
`try`, reports it as a warning, and continues: its result tree is the
per-file filter of the input, independent of other files' failures. -/
theorem cleaner_remove_failure_semantics (retain : Finset String) (dir : List String)
    (f : FileLeaf) (fs : List FileLeaf) (ds : WorkTree) (msg : String)
    (base : String) (tree : WorkTree) (tol : Int)
    (h1 : stripExt f.name ∉ retain) (h2 : f.remove_err = some msg) :
    delete_unlisted_images (⟨dir, f :: fs⟩ :: ds) retain =
      ⟨⟨dir, f :: fs⟩ :: ds, [], some msg⟩ ∧
    (check_and_delete_by_size base tree tol).tree = tree.map (dirFilter tol) := by
  constructor
  · have hk : keepUnlisted retain f = false := by
      simp [keepUnlisted, h1]
    simp [delete_unlisted_images, deleteFiles, hk, h2]
  · exact check_tree_eq base tree tol

/-- C3 (amended) witness: a concrete unlisted file whose removal fails
aborts `delete_unlisted_images` with the `OSError` surfaced and nothing
deleted, while the size pass on `cexTree` still filters every file. -/
theorem cleaner_remove_failure_semantics_witness :
    delete_unlisted_images [⟨["100x200"], [cexFileA]⟩] {"keep"} =
      ⟨[⟨["100x200"], [cexFileA]⟩], [], some "Permission denied"⟩ ∧
    (check_and_delete_by_size "temp_extracted" cexTree 0).tree = cexTree.map (dirFilter 0) :=
  cleaner_remove_failure_semantics {"keep"} ["100x200"] cexFileA [] [] "Permission denied"
    "temp_extracted" cexTree 0 (by decide) rfl

/-- C4: a file whose decode fails is kept, a warning naming its path and
the underlying error is emitted, and the walk is not aborted: the result
tree is still the per-file filter of the whole input tree. -/
theorem decode_failure_skips_file_with_warning (base : String) (tree : WorkTree) (tol : Int)
    (d : WalkDir) (f : FileLeaf) (e : String)
    (hd : d ∈ tree) (hf : f ∈ d.files) (hdec : f.decode = Except.error e) :
    (check_and_delete_by_size base tree tol).tree = tree.map (dirFilter tol) ∧
    dirFilter tol d ∈ (check_and_delete_by_size base tree tol).tree ∧
    f ∈ (dirFilter tol d).files ∧
    decodeWarn (filePath base d.dir f.name) e ∈
      (check_and_delete_by_size base tree tol).warnings := by
  refine ⟨check_tree_eq base tree tol, ?_, ?_, ?_⟩
  · rw [check_tree_eq]
    exact List.mem_map_of_mem _ hd
  · rw [dirFilter]
    exact List.mem_filter.mpr ⟨hf, by simp [sizeKeep, hdec]⟩
  · exact mem_warnings_check hd hf (by simp [sizeFileStep, hdec])

/-- C4 witness: an undecodable file under a parsable size tag survives the
pass and its warning is emitted. -/
theorem decode_failure_skips_file_with_warning_witness :
    (check_and_delete_by_size "temp_extracted" eTree 1).tree = eTree.map (dirFilter 1) ∧
    dirFilter 1 eDir ∈ (check_and_delete_by_size "temp_extracted" eTree 1).tree ∧
    eFile ∈ (dirFilter 1 eDir).files ∧
    decodeWarn (filePath "temp_extracted" eDir.dir eFile.name) "cannot identify image file" ∈
      (check_and_delete_by_size "temp_extracted" eTree 1).warnings :=
  decode_failure_skips_file_with_warning "temp_extracted" eTree 1 eDir eFile
    "cannot identify image file" (by decide) (by decide) rfl

/-- C5: a walked directory whose attributed folder name does not parse as
`<integer>x<integer>` is exempt: the size pass keeps all of its files
unchanged, whatever their decoded dimensions. -/
theorem unparsable_folder_files_exempt (base : String) (tree : WorkTree) (tol : Int)
    (d : WalkDir) (f : FileLeaf)
    (hd : d ∈ tree) (hf : f ∈ d.files)
    (hexp : get_expected_size (walkFolderName d.dir) = none) :
    (dirFilter tol d).files = d.files ∧
    dirFilter tol d ∈ (check_and_delete_by_size base tree tol).tree ∧
    f ∈ (dirFilter tol d).files := by
  have hall : (dirFilter tol d).files = d.files := by
    rw [dirFilter, hexp]
    apply List.filter_eq_self.mpr
    intro g hg
    cases hdec : g.decode <;> simp [sizeKeep, hdec]
  refine ⟨hall, ?_, hall ▸ hf⟩
  rw [check_tree_eq]
  exact List.mem_map_of_mem _ hd

/-- C5 witness: a `9999x9999`-pixel file in folder `misc` is kept. -/
theorem unparsable_folder_files_exempt_witness :
    (dirFilter 1 mDir).files = mDir.files ∧
    dirFilter 1 mDir ∈ (check_and_delete_by_size "temp_extracted" mTree 1).tree ∧
    mFile ∈ (dirFilter 1 mDir).files :=
  unparsable_folder_files_exempt "temp_extracted" mTree 1 mDir mFile
    (by decide) (by decide) (by decide)

/-- C6: the reconciler returns exactly `found \ retain` and
`retain \ found`, where `found` is the set of extension-stripped names in
the tree; the stated union and disjointness laws follow, and the pass only
reads the tree. -/
theorem reconciler_set_algebra (tree : WorkTree) (retain : Finset String) :
    (list_files_not_in_txt tree retain).1 = foundNames tree \ retain ∧
    (list_files_not_in_txt tree retain).2 = retain \ foundNames tree ∧
    (∀ x, x ∈ foundNames tree ↔ ∃ d ∈ tree, ∃ f ∈ d.files, stripExt f.name = x) ∧
    (list_files_not_in_txt tree retain).1 ∪ (foundNames tree ∩ retain) = foundNames tree ∧
    (list_files_not_in_txt tree retain).1 ∩ retain = ∅ ∧
    (list_files_not_in_txt tree retain).2 ∪ (retain ∩ foundNames tree) = retain ∧
    (list_files_not_in_txt tree retain).2 ∩ foundNames tree = ∅ :=
  ⟨rfl, rfl, mem_foundNames tree,
    Finset.sdiff_union_inter _ _,
    Finset.sdiff_inter_self _ _,
    Finset.sdiff_union_inter _ _,
    Finset.sdiff_inter_self _ _⟩

/-- C7: delete-unlisted is idempotent: after a successful run, a second run
on the resulting tree deletes nothing and returns an empty deletion list. -/
theorem delete_unlisted_idempotent (tree : WorkTree) (retain : Finset String)
    (h : (delete_unlisted_images tree retain).error = none) :
    delete_unlisted_images ((delete_unlisted_images tree retain).tree) retain =
      ⟨(delete_unlisted_images tree retain).tree, [], none⟩ := by
  rw [delete_unlisted_tree_of_error_none tree retain h]
  apply delete_unlisted_fixed
  intro d hd f hf
  rcases List.mem_map.mp hd with ⟨d0, hd0, rfl⟩
  exact (List.mem_filter.mp hf).2

/-- C7 witness: rerunning delete-unlisted on `cexTree` with both names
retained (so the first run deletes nothing and errors nowhere) changes
nothing. -/
theorem delete_unlisted_idempotent_witness :
    delete_unlisted_images ((delete_unlisted_images cexTree {"a", "b"}).tree) {"a", "b"} =
      ⟨(delete_unlisted_images cexTree {"a", "b"}).tree, [], none⟩ :=
  delete_unlisted_idempotent cexTree {"a", "b"} (by decide)

/-- C8: extracting a valid archive (well-formed, duplicate-free file entry
paths) and immediately rebuilding yields an archive with the same set of
entry relative paths and contents. -/
theorem extract_rebuild_roundtrip (dec : List Nat → Except String (Nat × Nat))
    (z : List (List String × List Nat)) (hv : archiveValid z = true) :
    (create_zip_from_folder (extract_zip dec z)).toFinset =
      (z.map (fun e => (String.mk (joinComponents e.1), e.2))).toFinset := by
  apply Finset.ext
  intro pr
  simp only [List.mem_toFinset]
  rw [mem_create_zip]
  constructor
  · rintro ⟨d, hd, f, hf, rfl⟩
    rw [extract_zip] at hd
    rcases List.mem_map.mp hd with ⟨dd, hdd, rfl⟩
    rcases mem_extractFiles.mp hf with ⟨e, he, hde, rfl⟩
    rw [List.mem_map]
    refine ⟨e, he, ?_⟩
    have hne : e.1 ≠ [] := archiveValid_ne_nil hv e he
    rw [← hde, dirOf_append_baseOf hne]
  · intro hpr
    rcases List.mem_map.mp hpr with ⟨e, he, rfl⟩
    have hne : e.1 ≠ [] := archiveValid_ne_nil hv e he
    refine ⟨⟨dirOf e.1, extractFilesInto dec z (dirOf e.1)⟩, ?_,
      ⟨baseOf e.1, dec e.2, none, e.2⟩, ?_, ?_⟩
    · rw [extract_zip]
      exact List.mem_map_of_mem _ (mem_extractDirs he)
    · exact mem_extractFiles.mpr ⟨e, he, rfl, rfl⟩
    · simp [dirOf_append_baseOf hne]

/-- C8 witness: a concrete two-entry archive round-trips. -/
theorem extract_rebuild_roundtrip_witness :
    (create_zip_from_folder (extract_zip wDecoder wZip)).toFinset =
      (wZip.map (fun e => (String.mk (joinComponents e.1), e.2))).toFinset :=
  extract_rebuild_roundtrip wDecoder wZip (by decide)

/-- C9: a file directly at the extraction root gets folder name `"."`,
which never parses as a size tag, so the size pass keeps every root file
unchanged. -/
theorem root_files_have_no_expected_size (base : String) (tree : WorkTree) (tol : Int)
    (d : WalkDir) (f : FileLeaf)
    (hd : d ∈ tree) (hroot : d.dir = []) (hf : f ∈ d.files) :
    walkFolderName d.dir = "." ∧
    get_expected_size (walkFolderName d.dir) = none ∧
    (dirFilter tol d).files = d.files ∧
    dirFilter tol d ∈ (check_and_delete_by_size base tree tol).tree ∧
    f ∈ (dirFilter tol d).files := by
  have h1 : walkFolderName d.dir = "." := by
    rw [hroot]
    rfl
  have h2 : get_expected_size (walkFolderName d.dir) = none := by
    rw [h1]
    rfl
  have hall : (dirFilter tol d).files = d.files := by
    rw [dirFilter, h2]
    apply List.filter_eq_self.mpr
    intro g hg
    cases hdec : g.decode <;> simp [sizeKeep, hdec]
  refine ⟨h1, h2, hall, ?_, hall ▸ hf⟩
  rw [check_tree_eq]
  exact List.mem_map_of_mem _ hd

/-- C9 witness: a concrete root-level file is exempt. -/
theorem root_files_have_no_expected_size_witness :
    walkFolderName rDir.dir = "." ∧
    get_expected_size (walkFolderName rDir.dir) = none ∧
    (dirFilter 1 rDir).files = rDir.files ∧
    dirFilter 1 rDir ∈ (check_and_delete_by_size "temp_extracted" rTree 1).tree ∧
    rFile ∈ (dirFilter 1 rDir).files :=
  root_files_have_no_expected_size "temp_extracted" rTree 1 rDir rFile
    (by decide) rfl (by decide)

/-- C10: the size pass attempts to decode even files in folders with no
parsable expected size: such a file failing to decode still produces a
warning, and the file is retained. -/
theorem exempt_files_still_decoded_warned (base : String) (tree : WorkTree) (tol : Int)
    (d : WalkDir) (f : FileLeaf) (e : String)
    (hd : d ∈ tree) (hf : f ∈ d.files)
    (hexp : get_expected_size (walkFolderName d.dir) = none)
    (hdec : f.decode = Except.error e) :
    decodeWarn (filePath base d.dir f.name) e ∈
      (check_and_delete_by_size base tree tol).warnings ∧
    dirFilter tol d ∈ (check_and_delete_by_size base tree tol).tree ∧
    (dirFilter tol d).files = d.files ∧
    f ∈ (dirFilter tol d).files := by
  have hall : (dirFilter tol d).files = d.files := by
    rw [dirFilter, hexp]
    apply List.filter_eq_self.mpr
    intro g hg
    cases hdec2 : g.decode <;> simp [sizeKeep, hdec2]
  refine ⟨mem_warnings_check hd hf (by simp [sizeFileStep, hdec]), ?_, hall, hall ▸ hf⟩
  rw [check_tree_eq]
  exact List.mem_map_of_mem _ hd

/-- C10 witness: an undecodable file in exempt folder `misc` is warned
about and retained. -/
theorem exempt_files_still_decoded_warned_witness :
    decodeWarn (filePath "temp_extracted" xDir.dir xFile.name) "not an image" ∈
      (check_and_delete_by_size "temp_extracted" xTree 1).warnings ∧
    dirFilter 1 xDir ∈ (check_and_delete_by_size "temp_extracted" xTree 1).tree ∧
    (dirFilter 1 xDir).files = xDir.files ∧
    xFile ∈ (dirFilter 1 xDir).files :=
  exempt_files_still_decoded_warned "temp_extracted" xTree 1 xDir xFile "not an image"
    (by decide) (by decide) (by decide) rfl
